import Mathlib

/-!
Shallow embedding of the Git Helper VS Code extension's core logic:
repository discovery (`findRepos`, `scanDir`), the background remote-status
poll cycle (`startBackgroundCheck`), the AI commit-message fallback, the
`.gitignore` append, and the API-key resolution of the secret-storage
variant of the extension.

Directory trees are modelled as finite inductive trees; a path is the list
of directory-name segments below the workspace root (the root itself is
`[]`).  External collaborators (the quick-pick UI, the git remote, the
JSON parser of the AI response) are parameters of the embedded functions.
-/

namespace GitHelper

/-- Filesystem entry: a directory with a name and children, or a plain file
with a name.  Mirrors what `fs.readdirSync(dir, { withFileTypes: true })`
exposes to the scanners. -/
inductive FsEntry where
  | dir (name : String) (children : List FsEntry)
  | file (name : String)

/-- Name of an entry, for either kind. -/
def FsEntry.name : FsEntry → String
  | .dir n _ => n
  | .file n => n

/-- Embeds `fs.existsSync(path.join(p, '.git'))`: the directory with
children `children` contains an entry (of either kind) named `.git`. -/
def hasGit (children : List FsEntry) : Bool :=
  children.any (fun e => e.name == ".git")

/-- One entry of the `repos` array built by `getRepoOrPickOne`:
`{ label: ..., path: ... }`.  Paths are segment lists below the root. -/
structure RepoEntry where
  label : String
  path : List String
deriving Repr, DecidableEq

/-- Embeds the inner `findRepos(dir, depth)` of `getRepoOrPickOne`
(src/extension.js lines 270-287), generalised over the hard-coded depth
bound `4` (`maxDepth`): return immediately when `depth > maxDepth`;
otherwise, for each directory entry whose name is not `node_modules` or
`dist`, push `{ label: file.name, path: subPath }` when the subdirectory
contains `.git`, and recurse with `depth + 1` otherwise.  `curPath` is the
path of the directory being listed. -/
def findRepos (maxDepth : Nat) (entries : List FsEntry) (curPath : List String)
    (depth : Nat) : List RepoEntry :=
  if depth > maxDepth then []
  else
    match entries with
    | [] => []
    | .file _ :: rest => findRepos maxDepth rest curPath depth
    | .dir name children :: rest =>
      (if name = "node_modules" ∨ name = "dist" then []
       else if hasGit children then [⟨name, curPath ++ [name]⟩]
       else findRepos maxDepth children (curPath ++ [name]) (depth + 1))
      ++ findRepos maxDepth rest curPath depth
termination_by sizeOf entries
decreasing_by all_goals simp_wf <;> omega

/-- Embeds the `repos` list of `getRepoOrPickOne` (src/extension.js lines
264-287): the `Root` entry when the workspace root contains `.git`,
followed by the recursive scan with the implemented bound `4`. -/
def getRepoList (rootChildren : List FsEntry) : List RepoEntry :=
  (if hasGit rootChildren then [⟨"Root", []⟩] else []) ++
    findRepos 4 rootChildren [] 0

/-- Embeds the tail of `getRepoOrPickOne` (src/extension.js lines 289-298):
zero repos yields `undefined` (here `none`) after an error message; one
repo is returned directly; otherwise the quick-pick (parameter `pick`) is
shown the labels, and the picked label is resolved with
`repos.find(r => r.label === picked)`. -/
def getRepoOrPickOne (pick : List String → Option String)
    (rootChildren : List FsEntry) : Option (List String) :=
  let repos := getRepoList rootChildren
  match repos with
  | [] => none
  | [r] => some r.path
  | _ =>
    match pick (repos.map RepoEntry.label) with
    | none => none
    | some lbl => (repos.find? (fun r => r.label == lbl)).map RepoEntry.path

/-- One entry of the `candidates` array of `pickFolderToPublish`. -/
structure PublishCandidate where
  label : String
  path : List String
deriving Repr, DecidableEq

/-- Embeds the inner `scanDir(dir, depth)` of `pickFolderToPublish`
(src/extension.js lines 231-249), generalised over the hard-coded bound
`4`: return when `depth > maxDepth`; for each directory entry not named
`node_modules`, `.git`, `dist` or `build`, push a candidate when the
subdirectory does not contain `.git`, and keep digging either way. -/
def scanDir (maxDepth : Nat) (entries : List FsEntry) (curPath : List String)
    (depth : Nat) : List PublishCandidate :=
  if depth > maxDepth then []
  else
    match entries with
    | [] => []
    | .file _ :: rest => scanDir maxDepth rest curPath depth
    | .dir name children :: rest =>
      (if name = "node_modules" ∨ name = ".git" ∨ name = "dist" ∨ name = "build"
       then []
       else
         (if hasGit children then []
          else [⟨"$(file-directory) " ++ name, curPath ++ [name]⟩])
         ++ scanDir maxDepth children (curPath ++ [name]) (depth + 1))
      ++ scanDir maxDepth rest curPath depth
termination_by sizeOf entries
decreasing_by all_goals simp_wf <;> omega

/-- Embeds the `candidates` list of `pickFolderToPublish` (src/extension.js
lines 223-251): the Root candidate when the workspace root does not contain
`.git`, followed by the recursive scan with the implemented bound `4`. -/
def publishCandidates (rootChildren : List FsEntry) : List PublishCandidate :=
  (if hasGit rootChildren then [] else [⟨"$(file-directory) Root", []⟩]) ++
    scanDir 4 rootChildren [] 0

/-- Embeds the tail of `pickFolderToPublish` (src/extension.js lines
253-256): with zero candidates the function returns `rootPath` (the root
path `[]`), otherwise the quick-pick (parameter `choose`) selects a
candidate whose path is returned, `none` on cancel. -/
def pickFolderToPublish (choose : List PublishCandidate → Option PublishCandidate)
    (rootChildren : List FsEntry) : Option (List String) :=
  let candidates := publishCandidates rootChildren
  if candidates.isEmpty then some []
  else
    match choose candidates with
    | none => none
    | some c => some c.path

/-- Result of one cycle of the background poll loop: the repositories on
which a remote fetch was attempted, in order, and the repository (with its
behind-count) for which the single notification of the cycle was shown, if
any. -/
structure CycleResult where
  remoteCalls : List (List String)
  notification : Option (List String)
deriving Repr, DecidableEq

/-- Embeds the repository discovery of `startBackgroundCheck`
(src/extension.js lines 306-318): the root when it contains `.git`, then a
single-level scan pushing every direct subdirectory that contains `.git` —
note that this scan applies no name exclusion at all. -/
def discoverRepoPaths (rootChildren : List FsEntry) : List (List String) :=
  (if hasGit rootChildren then [[]] else []) ++
    rootChildren.filterMap (fun e =>
      match e with
      | .dir name children => if hasGit children then some [name] else none
      | .file _ => none)

/-- Embeds the per-repository loop of `startBackgroundCheck`
(src/extension.js lines 320-342).  The parameter `remote` abstracts the
git interaction of one loop body (`fetch`, `status`, and the author
lookup): `none` means some step threw (the empty `catch` swallows it and
the loop continues), `some behind` means the steps succeeded and `status`
reported `behind` commits behind.  On `behind > 0` the notification is
shown and the loop `break`s. -/
def pollRepos (remote : List String → Option Nat) :
    List (List String) → CycleResult
  | [] => ⟨[], none⟩
  | p :: rest =>
    match remote p with
    | none =>
      let r := pollRepos remote rest
      ⟨p :: r.remoteCalls, r.notification⟩
    | some behind =>
      if behind > 0 then ⟨[p], some p⟩
      else
        let r := pollRepos remote rest
        ⟨p :: r.remoteCalls, r.notification⟩

/-- One full poll cycle: discovery followed by the per-repository loop. -/
def pollCycle (remote : List String → Option Nat)
    (rootChildren : List FsEntry) : CycleResult :=
  pollRepos remote (discoverRepoPaths rootChildren)

/-- Embeds `text.replace(/```json/g, '').replace(/```/g, '').trim()` of the
`aiCommit` command (src/extension.js line 135). -/
def stripFences (s : String) : String :=
  ((s.replace "```json" "").replace "```" "").trim

/-- Embeds the option-building of `aiCommit` (src/extension.js lines
132-137).  `parse` abstracts `JSON.parse` on the fence-stripped text:
`none` when the text is not valid JSON (the `catch` branch), `some opts`
when it parses to an array of messages.  On parse failure the options
array is `[result.response.text()]`, the raw response text. -/
def aiCommitOptions (parse : String → Option (List String)) (raw : String) :
    List String :=
  match parse (stripFences raw) with
  | some opts => opts
  | none => [raw]

/-- Embeds the content appended by `git-helper.ignoreFiles`
(src/extension.js line 74): `'\n' + linesToAdd.join('\n') + '\n'`. -/
def ignoreAppendContent (linesToAdd : List String) : String :=
  "\n" ++ String.intercalate "\n" linesToAdd ++ "\n"

/-- Embeds `fs.appendFileSync(gitignorePath, content)` (src/extension.js
line 76): the ignore file's new content is the old content with the
appended block. -/
def appendIgnore (oldContent : String) (linesToAdd : List String) : String :=
  oldContent ++ ignoreAppendContent linesToAdd

/-- JavaScript string falsiness for an optional string: `undefined` and
the empty string are falsy. -/
def strFalsy : Option String → Bool
  | none => true
  | some s => s == ""

/-- Embeds `apiKey.includes('PUT_YOUR_DEFAULT_KEY')` (src/unnamed/part_001
line 141). -/
def containsPlaceholder (s : String) : Bool :=
  decide ("PUT_YOUR_DEFAULT_KEY".data <:+: s.data)

/-- Outcome of the key-resolution prologue of the secret-storage variant of
`aiCommit`: either the actionable missing-key error (offering the Set Key
flow) after which the command returns, or the key to proceed with. -/
inductive KeyResolution where
  | errorSetKey
  | proceed (key : String)
deriving Repr, DecidableEq

/-- Embeds the key-resolution logic of `aiCommit` in the secret-storage
variant (src/unnamed/part_001 lines 130-148): the secret-storage value is
taken first; when falsy, the packaged `gitHelper.defaultApiKey`
configuration value replaces it; when the result is falsy or contains the
placeholder, the error path is taken. -/
def resolveApiKey (secretKey defaultKey : Option String) : KeyResolution :=
  let apiKey := if strFalsy secretKey then defaultKey else secretKey
  match apiKey with
  | none => .errorSetKey
  | some k => if k == "" || containsPlaceholder k then .errorSetKey else .proceed k

/-- Trace of the external calls the `aiCommit` command body performs after
key resolution (src/unnamed/part_001 lines 141-175): nothing at all on the
key error (the command returns first); otherwise `git.status`, stopping
there when no files changed; then `git.add` and `git.diff`, stopping when
the staged diff is empty; then the generative-AI call. -/
def aiCommitCalls (secretKey defaultKey : Option String) (statusFiles : Nat)
    (diff : String) : List String :=
  match resolveApiKey secretKey defaultKey with
  | .errorSetKey => []
  | .proceed _ =>
    if statusFiles = 0 then ["git.status"]
    else if diff = "" then ["git.status", "git.add", "git.diff"]
    else ["git.status", "git.add", "git.diff", "ai.generateContent"]

/-- Pairwise-distinct strings.  A real `fs.readdirSync` never lists the
same name twice inside one directory; trees satisfying this are the ones a
filesystem can present to the scanners. -/
def distinctNames : List String → Bool
  | [] => true
  | n :: ns => (!ns.contains n) && distinctNames ns

/-- Every directory of the forest, recursively, lists pairwise-distinct
child names. -/
def wfAll : List FsEntry → Bool
  | [] => true
  | .file _ :: rest => wfAll rest
  | .dir _ children :: rest =>
    (distinctNames (children.map FsEntry.name) && wfAll children) && wfAll rest
termination_by es => sizeOf es
decreasing_by all_goals simp_wf <;> omega

/-- Well-formed forest: the top-level names are distinct and every
directory below recursively lists distinct names. -/
def wfForest (es : List FsEntry) : Bool :=
  distinctNames (es.map FsEntry.name) && wfAll es

/-- Depth of a forest: number of levels below the root (a file one level
down contributes 1). -/
def forestDepth : List FsEntry → Nat
  | [] => 0
  | .file _ :: rest => max 1 (forestDepth rest)
  | .dir _ children :: rest => max (1 + forestDepth children) (forestDepth rest)
termination_by es => sizeOf es
decreasing_by all_goals simp_wf <;> omega

/-- No returned candidate lies strictly inside another returned
candidate: whenever one path is a prefix of another, the two are equal. -/
def nestedFree (rs : List RepoEntry) : Prop :=
  ∀ r1 ∈ rs, ∀ r2 ∈ rs, r1.path <+: r2.path → r1.path = r2.path

/-- Modelled from the spec: the excluded directory names of the data-model
invariant — the version-control metadata directory, the dependency-cache
directory and the build-output directories named by the code base. -/
def specExcludedDirNames : List String :=
  [".git", "node_modules", "dist", "build"]

/-- Modelled from the spec: the ignore-file scenario predicate — the file
content ends with exactly the selected lines, each newline-terminated,
preceded by one blank line (the file may also consist of just the blank
line and the selected lines). -/
def endsWithBlankThenLines (content : String) (sel : List String) : Prop :=
  content.data = '\n' :: (String.intercalate "\n" sel ++ "\n").data ∨
    ('\n' :: '\n' :: (String.intercalate "\n" sel ++ "\n").data) <:+ content.data

/-- A usable API key value: present, non-empty, and not containing the
packaged placeholder. -/
def usableKey (o : Option String) : Prop :=
  ∃ s, o = some s ∧ s ≠ "" ∧ containsPlaceholder s = false

/-- The loop body of the poller succeeds on `p` with a positive
behind-count. -/
def behindPos (remote : List String → Option Nat) (p : List String) : Bool :=
  match remote p with
  | some b => decide (b > 0)
  | none => false

/-- Example tree: the workspace root is itself a repository and a direct
subdirectory `sub` is also a repository. -/
def exRootAndSub : List FsEntry := [.file ".git", .dir "sub" [.file ".git"]]

/-- Example tree of the nested-repository scenario: `/repoA/.git` with
`/repoA/sub/.git`; the root itself is not a repository. -/
def exNestedRepos : List FsEntry :=
  [.dir "repoA" [.dir ".git" [], .dir "sub" [.dir ".git" []]]]

/-- Example tree: a repository hidden inside a directory named `build`. -/
def exBuildRepo : List FsEntry := [.dir "build" [.dir "r" [.file ".git"]]]

/-- Example tree: a top-level directory named `node_modules` that contains
version-control metadata. -/
def exNodeModulesRepo : List FsEntry := [.dir "node_modules" [.file ".git"]]

/-- Example tree of depth 3 (`a/b/c`) whose direct child `a` is a
repository. -/
def exDepth3 : List FsEntry :=
  [.dir "a" [.dir ".git" [], .dir "b" [.dir "c" []]]]

/-- Example tree: a single chain `a/b/c/d/e` with a repository at depth 5
below the root. -/
def exChain5 : List FsEntry :=
  [.dir "a" [.dir "b" [.dir "c" [.dir "d" [.dir "e" [.file ".git"]]]]]]

/-- Example tree: the workspace root is a repository and contains nothing
else. -/
def exRootOnlyRepo : List FsEntry := [.dir ".git" []]

/-- Example tree: two repositories in different parents but with the same
directory basename `app`, hence identical labels. -/
def exDupLabels : List FsEntry :=
  [.dir "a" [.dir "app" [.file ".git"]], .dir "b" [.dir "app" [.file ".git"]]]

theorem findRepos_stop {md : Nat} {entries : List FsEntry} {cur : List String}
    {d : Nat} (h : d > md) : findRepos md entries cur d = [] := by
  rw [findRepos.eq_def]
  simp [h]

theorem findRepos_nil {md : Nat} {cur : List String} {d : Nat} :
    findRepos md [] cur d = [] := by
  rw [findRepos.eq_def]
  split <;> rfl

theorem findRepos_file {md : Nat} {n : String} {rest : List FsEntry}
    {cur : List String} {d : Nat} (h : ¬ d > md) :
    findRepos md (.file n :: rest) cur d = findRepos md rest cur d := by
  conv_lhs => rw [findRepos.eq_def]
  simp [h]

theorem findRepos_dir {md : Nat} {n : String} {c rest : List FsEntry}
    {cur : List String} {d : Nat} (h : ¬ d > md) :
    findRepos md (.dir n c :: rest) cur d =
      (if n = "node_modules" ∨ n = "dist" then []
       else if hasGit c then [⟨n, cur ++ [n]⟩]
       else findRepos md c (cur ++ [n]) (d + 1))
      ++ findRepos md rest cur d := by
  conv_lhs => rw [findRepos.eq_def]
  simp [h]

theorem findRepos_shape (md : Nat) (entries : List FsEntry) (cur : List String)
    (d : Nat) :
    ∀ r ∈ findRepos md entries cur d,
      ∃ n t, r.path = cur ++ n :: t ∧ n ∈ entries.map FsEntry.name := by
  induction entries, cur, d using findRepos.induct md with
  | case1 entries cur d h =>
    simp [findRepos_stop h]
  | case2 cur d h =>
    simp [findRepos_nil]
  | case3 cur d h n rest ih =>
    rw [findRepos_file h]
    intro r hr
    obtain ⟨m, t, hpath, hmem⟩ := ih r hr
    exact ⟨m, t, hpath, by simp [hmem]⟩
  | case4 cur d h n c rest ihc ihr =>
    rw [findRepos_dir h]
    intro r hr
    rcases List.mem_append.mp hr with hl | hrr
    · split at hl
      · simp at hl
      · split at hl
        · simp at hl
          subst hl
          exact ⟨n, [], by simp, by simp [FsEntry.name]⟩
        · obtain ⟨m, t, hpath, _⟩ := ihc r hl
          refine ⟨n, m :: t, ?_, by simp [FsEntry.name]⟩
          rw [hpath, List.append_assoc]
          rfl
    · obtain ⟨m, t, hpath, hmem⟩ := ihr r hrr
      exact ⟨m, t, hpath, by simp [hmem]⟩

theorem wfAll_tail {e : FsEntry} {rest : List FsEntry}
    (h : wfAll (e :: rest) = true) : wfAll rest = true := by
  cases e <;> simp [wfAll] at h <;> tauto

theorem wfForest_tail {e : FsEntry} {rest : List FsEntry}
    (h : wfForest (e :: rest) = true) : wfForest rest = true := by
  unfold wfForest at h ⊢
  simp [distinctNames] at h ⊢
  exact ⟨h.1.2, wfAll_tail h.2⟩

theorem wfForest_children {n : String} {c rest : List FsEntry}
    (h : wfForest (.dir n c :: rest) = true) : wfForest c = true := by
  unfold wfForest at h ⊢
  simp [wfAll] at h
  simp_all

theorem wfForest_head_not_mem {n : String} {c rest : List FsEntry}
    (h : wfForest (.dir n c :: rest) = true) :
    n ∉ rest.map FsEntry.name := by
  unfold wfForest at h
  simp [distinctNames, FsEntry.name] at h
  intro hmem
  obtain ⟨x, hx, hxe⟩ := List.mem_map.mp hmem
  exact h.1.1 x hx hxe

theorem append_cons_prefix_iff {α : Type} (cur : List α) (a b : α)
    (s t : List α) :
    cur ++ a :: s <+: cur ++ b :: t ↔ a = b ∧ s <+: t := by
  induction cur with
  | nil => exact List.cons_prefix_cons
  | cons x xs ih => simp [List.cons_prefix_cons, ih]

theorem findRepos_nestedFree (md : Nat) (entries : List FsEntry)
    (cur : List String) (d : Nat) :
    wfForest entries = true → nestedFree (findRepos md entries cur d) := by
  induction entries, cur, d using findRepos.induct md with
  | case1 entries cur d h =>
    intro _
    simp [nestedFree, findRepos_stop h]
  | case2 cur d h =>
    intro _
    simp [nestedFree, findRepos_nil]
  | case3 cur d h n rest ih =>
    intro hwf
    rw [findRepos_file h]
    exact ih (wfForest_tail hwf)
  | case4 cur d h n c rest ihc ihr =>
    intro hwf
    rw [findRepos_dir h]
    have hnotmem : n ∉ rest.map FsEntry.name := wfForest_head_not_mem hwf
    by_cases hex : n = "node_modules" ∨ n = "dist"
    · simp only [if_pos hex, List.nil_append]
      exact ihr (wfForest_tail hwf)
    · simp only [if_neg hex]
      by_cases hg : hasGit c = true
      · simp only [if_pos hg]
        intro r1 h1 r2 h2 hpre
        rcases List.mem_append.mp h1 with h1a | h1b
        · rcases List.mem_append.mp h2 with h2a | h2b
          · rw [List.mem_singleton.mp h1a, List.mem_singleton.mp h2a]
          · obtain ⟨m2, t2, hp2, hm2⟩ := findRepos_shape md rest cur d r2 h2b
            rw [List.mem_singleton.mp h1a] at hpre
            rw [hp2] at hpre
            have heq : cur ++ [n] = cur ++ n :: ([] : List String) := rfl
            rw [heq] at hpre
            have := (append_cons_prefix_iff cur n m2 [] t2).mp hpre
            exact absurd (this.1 ▸ hm2) hnotmem
        · rcases List.mem_append.mp h2 with h2a | h2b
          · obtain ⟨m1, t1, hp1, hm1⟩ := findRepos_shape md rest cur d r1 h1b
            rw [List.mem_singleton.mp h2a] at hpre
            rw [hp1] at hpre
            have heq : cur ++ [n] = cur ++ n :: ([] : List String) := rfl
            rw [heq] at hpre
            have := (append_cons_prefix_iff cur m1 n t1 []).mp hpre
            exact absurd (this.1 ▸ hm1) hnotmem
          · exact ihr (wfForest_tail hwf) r1 h1b r2 h2b hpre
      · simp only [if_neg hg]
        intro r1 h1 r2 h2 hpre
        rcases List.mem_append.mp h1 with h1a | h1b
        · rcases List.mem_append.mp h2 with h2a | h2b
          · exact ihc (wfForest_children hwf) r1 h1a r2 h2a hpre
          · obtain ⟨m1, t1, hp1, hm1⟩ :=
              findRepos_shape md c (cur ++ [n]) (d + 1) r1 h1a
            obtain ⟨m2, t2, hp2, hm2⟩ := findRepos_shape md rest cur d r2 h2b
            have hp1' : r1.path = cur ++ n :: m1 :: t1 := by
              rw [hp1, List.append_assoc]
              rfl
            rw [hp1', hp2] at hpre
            have := (append_cons_prefix_iff cur n m2 (m1 :: t1) t2).mp hpre
            exact absurd (this.1 ▸ hm2) hnotmem
        · rcases List.mem_append.mp h2 with h2a | h2b
          · obtain ⟨m2, t2, hp2, hm2⟩ :=
              findRepos_shape md c (cur ++ [n]) (d + 1) r2 h2a
            obtain ⟨m1, t1, hp1, hm1⟩ := findRepos_shape md rest cur d r1 h1b
            have hp2' : r2.path = cur ++ n :: m2 :: t2 := by
              rw [hp2, List.append_assoc]
              rfl
            rw [hp1, hp2'] at hpre
            have := (append_cons_prefix_iff cur m1 n t1 (m2 :: t2)).mp hpre
            exact absurd (this.1 ▸ hm1) hnotmem
          · exact ihr (wfForest_tail hwf) r1 h1b r2 h2b hpre

theorem findRepos_segments (md : Nat) (entries : List FsEntry)
    (cur : List String) (d : Nat) :
    ∀ r ∈ findRepos md entries cur d, ∀ s ∈ r.path,
      s ∈ cur ∨ (s ≠ "node_modules" ∧ s ≠ "dist") := by
  induction entries, cur, d using findRepos.induct md with
  | case1 entries cur d h => simp [findRepos_stop h]
  | case2 cur d h => simp [findRepos_nil]
  | case3 cur d h n rest ih =>
    rw [findRepos_file h]
    exact ih
  | case4 cur d h n c rest ihc ihr =>
    rw [findRepos_dir h]
    intro r hr s hs
    rcases List.mem_append.mp hr with hl | hrr
    · by_cases hex : n = "node_modules" ∨ n = "dist"
      · rw [if_pos hex] at hl
        simp at hl
      · rw [if_neg hex] at hl
        push_neg at hex
        by_cases hg : hasGit c = true
        · rw [if_pos hg] at hl
          rw [List.mem_singleton.mp hl] at hs
          simp at hs
          rcases hs with hs | hs
          · exact Or.inl hs
          · subst hs
            exact Or.inr hex
        · rw [if_neg hg] at hl
          rcases ihc r hl s hs with hcur | hok
          · rcases List.mem_append.mp hcur with h1 | h2
            · exact Or.inl h1
            · simp at h2
              subst h2
              exact Or.inr hex
          · exact Or.inr hok
    · exact ihr r hrr s hs

theorem findRepos_depth_bound (md : Nat) (entries : List FsEntry)
    (cur : List String) (d : Nat) :
    ∀ r ∈ findRepos md entries cur d,
      r.path.length + d ≤ cur.length + md + 1 := by
  induction entries, cur, d using findRepos.induct md with
  | case1 entries cur d h => simp [findRepos_stop h]
  | case2 cur d h => simp [findRepos_nil]
  | case3 cur d h n rest ih =>
    rw [findRepos_file h]
    exact ih
  | case4 cur d h n c rest ihc ihr =>
    rw [findRepos_dir h]
    intro r hr
    rcases List.mem_append.mp hr with hl | hrr
    · split at hl
      · simp at hl
      · split at hl
        · rw [List.mem_singleton.mp hl]
          simp
          omega
        · have := ihc r hl
          simp at this ⊢
          omega
    · exact ihr r hrr

theorem scanDir_stop {md : Nat} {entries : List FsEntry} {cur : List String}
    {d : Nat} (h : d > md) : scanDir md entries cur d = [] := by
  rw [scanDir.eq_def]
  simp [h]

theorem scanDir_nil {md : Nat} {cur : List String} {d : Nat} :
    scanDir md [] cur d = [] := by
  rw [scanDir.eq_def]
  split <;> rfl

theorem scanDir_file {md : Nat} {n : String} {rest : List FsEntry}
    {cur : List String} {d : Nat} (h : ¬ d > md) :
    scanDir md (.file n :: rest) cur d = scanDir md rest cur d := by
  conv_lhs => rw [scanDir.eq_def]
  simp [h]

theorem scanDir_dir {md : Nat} {n : String} {c rest : List FsEntry}
    {cur : List String} {d : Nat} (h : ¬ d > md) :
    scanDir md (.dir n c :: rest) cur d =
      (if n = "node_modules" ∨ n = ".git" ∨ n = "dist" ∨ n = "build" then []
       else
         (if hasGit c then []
          else [⟨"$(file-directory) " ++ n, cur ++ [n]⟩])
         ++ scanDir md c (cur ++ [n]) (d + 1))
      ++ scanDir md rest cur d := by
  conv_lhs => rw [scanDir.eq_def]
  simp [h]

theorem scanDir_segments (md : Nat) (entries : List FsEntry)
    (cur : List String) (d : Nat) :
    ∀ c ∈ scanDir md entries cur d, ∀ s ∈ c.path,
      s ∈ cur ∨
        (s ≠ "node_modules" ∧ s ≠ ".git" ∧ s ≠ "dist" ∧ s ≠ "build") := by
  induction entries, cur, d using scanDir.induct md with
  | case1 entries cur d h => simp [scanDir_stop h]
  | case2 cur d h => simp [scanDir_nil]
  | case3 cur d h n rest ih =>
    rw [scanDir_file h]
    exact ih
  | case4 cur d h n ch rest ihc ihr =>
    rw [scanDir_dir h]
    intro c hc s hs
    rcases List.mem_append.mp hc with hl | hrr
    · by_cases hex : n = "node_modules" ∨ n = ".git" ∨ n = "dist" ∨ n = "build"
      · rw [if_pos hex] at hl
        simp at hl
      · rw [if_neg hex] at hl
        push_neg at hex
        rcases List.mem_append.mp hl with hcand | hrec
        · by_cases hg : hasGit ch = true
          · rw [if_pos hg] at hcand
            simp at hcand
          · rw [if_neg hg] at hcand
            rw [List.mem_singleton.mp hcand] at hs
            simp at hs
            rcases hs with hs | hs
            · exact Or.inl hs
            · subst hs
              exact Or.inr hex
        · rcases ihc c hrec s hs with hcur | hok
          · rcases List.mem_append.mp hcur with h1 | h2
            · exact Or.inl h1
            · simp at h2
              subst h2
              exact Or.inr hex
          · exact Or.inr hok
    · exact ihr c hrr s hs

theorem scanDir_depth_bound (md : Nat) (entries : List FsEntry)
    (cur : List String) (d : Nat) :
    ∀ c ∈ scanDir md entries cur d,
      c.path.length + d ≤ cur.length + md + 1 := by
  induction entries, cur, d using scanDir.induct md with
  | case1 entries cur d h => simp [scanDir_stop h]
  | case2 cur d h => simp [scanDir_nil]
  | case3 cur d h n rest ih =>
    rw [scanDir_file h]
    exact ih
  | case4 cur d h n ch rest ihc ihr =>
    rw [scanDir_dir h]
    intro c hc
    rcases List.mem_append.mp hc with hl | hrr
    · split at hl
      · simp at hl
      · rcases List.mem_append.mp hl with hcand | hrec
        · split at hcand
          · simp at hcand
          · rw [List.mem_singleton.mp hcand]
            simp
            omega
        · have := ihc c hrec
          simp at this ⊢
          omega
    · exact ihr c hrr

theorem pollRepos_failure (remote : List String → Option Nat) (p : List String)
    (rest : List (List String)) (h : remote p = none) :
    pollRepos remote (p :: rest) =
      ⟨p :: (pollRepos remote rest).remoteCalls,
       (pollRepos remote rest).notification⟩ := by
  simp [pollRepos, h]

theorem pollRepos_zero (remote : List String → Option Nat) (p : List String)
    (rest : List (List String)) (h : remote p = some 0) :
    pollRepos remote (p :: rest) =
      ⟨p :: (pollRepos remote rest).remoteCalls,
       (pollRepos remote rest).notification⟩ := by
  simp [pollRepos, h]

theorem pollRepos_hit (remote : List String → Option Nat) (p : List String)
    (rest : List (List String)) (b : Nat) (hb : remote p = some b)
    (hpos : 0 < b) :
    pollRepos remote (p :: rest) = ⟨[p], some p⟩ := by
  simp [pollRepos, hb, hpos]

theorem pollRepos_notif_behind (remote : List String → Option Nat)
    (l : List (List String)) :
    ∀ p, (pollRepos remote l).notification = some p →
      ∃ b, remote p = some b ∧ 0 < b := by
  induction l with
  | nil => simp [pollRepos]
  | cons q rest ih =>
    intro p hp
    cases hq : remote q with
    | none =>
      rw [pollRepos_failure remote q rest hq] at hp
      exact ih p hp
    | some b =>
      by_cases hb : 0 < b
      · rw [pollRepos_hit remote q rest b hq hb] at hp
        simp at hp
        subst hp
        exact ⟨b, hq, hb⟩
      · have hb0 : b = 0 := by omega
        subst hb0
        rw [pollRepos_zero remote q rest hq] at hp
        exact ih p hp

theorem pollRepos_first (remote : List String → Option Nat)
    (pre : List (List String)) (p : List String) (suf : List (List String))
    (hpre : ∀ q ∈ pre, behindPos remote q = false)
    (hp : behindPos remote p = true) :
    pollRepos remote (pre ++ p :: suf) = ⟨pre ++ [p], some p⟩ := by
  induction pre with
  | nil =>
    simp only [List.nil_append]
    unfold behindPos at hp
    cases hq : remote p with
    | none =>
      rw [hq] at hp
      simp at hp
    | some b =>
      rw [hq] at hp
      simp at hp
      rw [pollRepos_hit remote p suf b hq hp]
  | cons q pre ih =>
    have hq := hpre q (by simp)
    unfold behindPos at hq
    have hrec := ih (fun x hx => hpre x (by simp [hx]))
    cases hqq : remote q with
    | none =>
      simp only [List.cons_append]
      rw [pollRepos_failure remote q _ hqq, hrec]
    | some b =>
      rw [hqq] at hq
      simp at hq
      subst hq
      simp only [List.cons_append]
      rw [pollRepos_zero remote q _ hqq, hrec]

theorem appendIgnore_blankThenLines (old : String) (sel : List String)
    (hold : old = "" ∨ ∃ q, old = q ++ "\n") :
    endsWithBlankThenLines (appendIgnore old sel) sel := by
  unfold endsWithBlankThenLines appendIgnore ignoreAppendContent
  rcases hold with h | ⟨q, h⟩
  · subst h
    left
    simp [String.data_append]
  · subst h
    right
    refine ⟨q.data, ?_⟩
    simp [String.data_append]

theorem findRepos_label_basename (md : Nat) (entries : List FsEntry)
    (cur : List String) (d : Nat) :
    ∀ r ∈ findRepos md entries cur d, ∃ pre, r.path = pre ++ [r.label] := by
  induction entries, cur, d using findRepos.induct md with
  | case1 entries cur d h => simp [findRepos_stop h]
  | case2 cur d h => simp [findRepos_nil]
  | case3 cur d h n rest ih =>
    rw [findRepos_file h]
    exact ih
  | case4 cur d h n c rest ihc ihr =>
    rw [findRepos_dir h]
    intro r hr
    rcases List.mem_append.mp hr with hl | hrr
    · split at hl
      · simp at hl
      · split at hl
        · rw [List.mem_singleton.mp hl]
          exact ⟨cur, rfl⟩
        · exact ihc r hl
    · exact ihr r hrr

/-- C1 counterexample: when the workspace root is itself a repository and a
direct subdirectory `sub` is also one, `getRepoOrPickOne`'s repository list
contains both the `Root` candidate (path `[]`) and the `sub` candidate
(path `["sub"]`), and the latter is strictly inside the former — so the
find-existing locator does return a candidate strictly inside another
returned candidate, contrary to the claim. -/
theorem c1_counterexample : ¬ nestedFree (getRepoList exRootAndSub) := by
  have h : getRepoList exRootAndSub = [⟨"Root", []⟩, ⟨"sub", ["sub"]⟩] := by
    simp [getRepoList, findRepos, hasGit, FsEntry.name, exRootAndSub]
  rw [h]
  unfold nestedFree
  decide

/-- C1 amended: the recursive scan of the find-existing locator
(`findRepos`) never returns nested candidates on any well-formed tree — in
particular the nested-repository scenario `/repoA/.git`, `/repoA/sub/.git`
yields only the `repoA` candidate — but when the workspace root is itself a
repository, the separately pushed `Root` entry can enclose scan candidates,
which is the only way nesting arises. -/
theorem c1_amended :
    (∀ rootChildren : List FsEntry, wfForest rootChildren = true →
       nestedFree (findRepos 4 rootChildren [] 0)) ∧
    getRepoList exNestedRepos = [⟨"repoA", ["repoA"]⟩] := by
  constructor
  · intro t hwf
    exact findRepos_nestedFree 4 t [] 0 hwf
  · simp [getRepoList, findRepos, hasGit, FsEntry.name, exNestedRepos]

/-- C1 witness: the amended theorem applied to a concrete well-formed
tree. -/
theorem c1_amended_witness :
    wfForest exNestedRepos = true ∧
    nestedFree (findRepos 4 exNestedRepos [] 0) := by
  have hwf : wfForest exNestedRepos = true := by
    simp [wfForest, wfAll, distinctNames, FsEntry.name, exNestedRepos]
  exact ⟨hwf, c1_amended.1 exNestedRepos hwf⟩

/-- C2 counterexample: the find-existing scan descends through a directory
named `build` — one of the excluded names of the spec's invariant — and
returns a candidate whose path contains it as a segment; likewise the
poller's discovery returns a path whose only segment is `node_modules`.
So the exclusion invariant does not hold for these scanners as claimed. -/
theorem c2_counterexample :
    (findRepos 4 exBuildRepo [] 0 = [⟨"r", ["build", "r"]⟩] ∧
       "build" ∈ (["build", "r"] : List String) ∧
       "build" ∈ specExcludedDirNames) ∧
    (discoverRepoPaths exNodeModulesRepo = [["node_modules"]] ∧
       "node_modules" ∈ specExcludedDirNames) := by
  refine ⟨⟨?_, by decide, by decide⟩, ⟨?_, by decide⟩⟩
  · simp [findRepos, hasGit, FsEntry.name, exBuildRepo]
  · decide

/-- C2 amended: each scanner avoids exactly its own hard-coded exclusion
list — `findRepos` never returns a path containing `node_modules` or
`dist` as a segment, and `scanDir` never returns a path containing
`node_modules`, `.git`, `dist` or `build` — while the poller's one-level
discovery applies no exclusion at all (see the counterexample). -/
theorem c2_amended :
    (∀ t : List FsEntry, ∀ r ∈ findRepos 4 t [] 0, ∀ s ∈ r.path,
       s ≠ "node_modules" ∧ s ≠ "dist") ∧
    (∀ t : List FsEntry, ∀ c ∈ scanDir 4 t [] 0, ∀ s ∈ c.path,
       s ≠ "node_modules" ∧ s ≠ ".git" ∧ s ≠ "dist" ∧ s ≠ "build") := by
  constructor
  · intro t r hr s hs
    rcases findRepos_segments 4 t [] 0 r hr s hs with h | h
    · simp at h
    · exact h
  · intro t c hc s hs
    rcases scanDir_segments 4 t [] 0 c hc s hs with h | h
    · simp at h
    · exact h

/-- C2 witness: the amended theorem applied to a concrete candidate of a
concrete tree. -/
theorem c2_amended_witness :
    (⟨"repoA", ["repoA"]⟩ : RepoEntry) ∈ findRepos 4 exNestedRepos [] 0 ∧
    ("repoA" ≠ "node_modules" ∧ "repoA" ≠ "dist") := by
  have hm : (⟨"repoA", ["repoA"]⟩ : RepoEntry) ∈ findRepos 4 exNestedRepos [] 0 := by
    simp [findRepos, hasGit, FsEntry.name, exNestedRepos]
  exact ⟨hm, c2_amended.1 exNestedRepos _ hm "repoA" (by simp)⟩

/-- C3 counterexample: with the depth bound set to 0 on a tree of depth 3,
the find-existing scan still returns one candidate strictly below the root
(the guard `depth > maxDepth` only cuts the next level), and with the
implemented bound 4 a candidate five levels below the root is returned —
deeper than that bound. -/
theorem c3_counterexample :
    (forestDepth exDepth3 = 3 ∧
       findRepos 0 exDepth3 [] 0 = [⟨"a", ["a"]⟩]) ∧
    (findRepos 4 exChain5 [] 0 = [⟨"e", ["a", "b", "c", "d", "e"]⟩] ∧
       (["a", "b", "c", "d", "e"] : List String).length = 4 + 1) := by
  refine ⟨⟨?_, ?_⟩, ?_, by decide⟩
  · simp [forestDepth, exDepth3]
  · simp [findRepos, hasGit, FsEntry.name, exDepth3]
  · simp [findRepos, hasGit, FsEntry.name, exChain5]

/-- C3 amended: for every depth bound and tree, no returned candidate of
either scanner lies more than `maxDepth + 1` levels below the root; the
bound attainable is `maxDepth + 1`, not `maxDepth` (directories at depth
`maxDepth` are still listed and their children returned). -/
theorem c3_amended :
    ∀ (maxDepth : Nat) (t : List FsEntry),
      (∀ r ∈ findRepos maxDepth t [] 0, r.path.length ≤ maxDepth + 1) ∧
      (∀ c ∈ scanDir maxDepth t [] 0, c.path.length ≤ maxDepth + 1) := by
  intro md t
  constructor
  · intro r hr
    have := findRepos_depth_bound md t [] 0 r hr
    simpa using this
  · intro c hc
    have := scanDir_depth_bound md t [] 0 c hc
    simpa using this

/-- C3 witness: the amended bound applied to the concrete depth-5
candidate, where it is attained exactly. -/
theorem c3_amended_witness :
    (⟨"e", ["a", "b", "c", "d", "e"]⟩ : RepoEntry) ∈ findRepos 4 exChain5 [] 0 ∧
    (["a", "b", "c", "d", "e"] : List String).length ≤ 4 + 1 := by
  have hm : (⟨"e", ["a", "b", "c", "d", "e"]⟩ : RepoEntry) ∈
      findRepos 4 exChain5 [] 0 := by
    simp [findRepos, hasGit, FsEntry.name, exChain5]
  exact ⟨hm, (c3_amended 4 exChain5).1 _ hm⟩

/-- C4: behavior of one poll cycle.  With zero discovered repositories no
remote call is attempted and no notification shown; a notification is only
ever shown for a repository whose queries succeeded with a positive
behind-count; and when the discovered list splits as `pre ++ p :: suf`
with every repository of `pre` failed-or-not-behind and `p` behind, the
single notification of the cycle is for `p` — the first such repository —
and scanning stops with `p` (no repository of `suf` is contacted). -/
theorem c4_poll_cycle (remote : List String → Option Nat)
    (rootChildren : List FsEntry) :
    (discoverRepoPaths rootChildren = [] →
       (pollCycle remote rootChildren).remoteCalls = [] ∧
       (pollCycle remote rootChildren).notification = none) ∧
    (∀ p, (pollCycle remote rootChildren).notification = some p →
       ∃ b, remote p = some b ∧ 0 < b) ∧
    (∀ pre p suf, discoverRepoPaths rootChildren = pre ++ p :: suf →
       (∀ q ∈ pre, behindPos remote q = false) →
       behindPos remote p = true →
       (pollCycle remote rootChildren).notification = some p ∧
       (pollCycle remote rootChildren).remoteCalls = pre ++ [p]) := by
  refine ⟨?_, ?_, ?_⟩
  · intro h
    simp [pollCycle, h, pollRepos]
  · intro p hp
    exact pollRepos_notif_behind remote _ p hp
  · intro pre p suf hsplit hpre hp
    unfold pollCycle
    rw [hsplit, pollRepos_first remote pre p suf hpre hp]
    exact ⟨rfl, rfl⟩

/-- C4 witness: a concrete cycle with one discovered repository two commits
behind notifies exactly that repository and calls it alone, and a concrete
empty workspace performs no calls. -/
theorem c4_poll_cycle_witness :
    ((pollCycle (fun _ => some 2) exNestedRepos).notification = some ["repoA"] ∧
       (pollCycle (fun _ => some 2) exNestedRepos).remoteCalls = [["repoA"]]) ∧
    ((pollCycle (fun _ => some 2) []).remoteCalls = [] ∧
       (pollCycle (fun _ => some 2) []).notification = none) := by
  constructor
  · exact (c4_poll_cycle (fun _ => some 2) exNestedRepos).2.2 [] ["repoA"] []
      (by decide) (by intro q hq; simp at hq) (by decide)
  · exact (c4_poll_cycle (fun _ => some 2) []).1 (by decide)

/-- C5 counterexample: when the workspace root is already a repository and
no publishable subdirectory exists, `pickFolderToPublish` finds zero
candidates yet returns the workspace root path itself — a silently
substituted folder, not an empty-result signal. -/
theorem c5_counterexample :
    publishCandidates exRootOnlyRepo = [] ∧
    pickFolderToPublish (fun _ => none) exRootOnlyRepo = some [] := by
  have h : publishCandidates exRootOnlyRepo = [] := by
    simp [publishCandidates, scanDir, hasGit, FsEntry.name, exRootOnlyRepo]
  exact ⟨h, by simp [pickFolderToPublish, h]⟩

/-- C5 amended: with zero publishable candidates `pickFolderToPublish`
returns the workspace root path (for every quick-pick behavior), not an
empty result; with zero discovered repositories `getRepoOrPickOne` does
return the empty result `none` (it shows an error message but does not
throw). -/
theorem c5_amended :
    (∀ (choose : List PublishCandidate → Option PublishCandidate)
       (t : List FsEntry), publishCandidates t = [] →
         pickFolderToPublish choose t = some []) ∧
    (∀ (pick : List String → Option String) (t : List FsEntry),
       getRepoList t = [] → getRepoOrPickOne pick t = none) := by
  constructor
  · intro choose t h
    simp [pickFolderToPublish, h]
  · intro pick t h
    simp [getRepoOrPickOne, h]

/-- C5 witness: the amended theorem applied to concrete workspaces — one
whose root is a repository with nothing publishable, and an empty one with
no repositories. -/
theorem c5_amended_witness :
    pickFolderToPublish (fun _ => none) exRootOnlyRepo = some [] ∧
    getRepoOrPickOne (fun _ => none) [] = none := by
  constructor
  · exact c5_amended.1 (fun _ => none) exRootOnlyRepo
      (by simp [publishCandidates, scanDir, hasGit, FsEntry.name, exRootOnlyRepo])
  · exact c5_amended.2 (fun _ => none) []
      (by simp [getRepoList, findRepos_nil, hasGit])

/-- C6: when the fence-stripped AI response fails to parse as JSON, the
quick-pick option list built by `aiCommit` is exactly the one-element list
holding the raw (unstripped) response text. -/
theorem c6_ai_fallback (parse : String → Option (List String)) (raw : String)
    (h : parse (stripFences raw) = none) :
    aiCommitOptions parse raw = [raw] ∧
    (aiCommitOptions parse raw).length = 1 := by
  simp [aiCommitOptions, h]

/-- C6 witness: the fallback applied to a concrete non-JSON response under
a parser that rejects everything. -/
theorem c6_ai_fallback_witness :
    aiCommitOptions (fun _ => none) "not json at all" = ["not json at all"] ∧
    (aiCommitOptions (fun _ => none) "not json at all").length = 1 :=
  c6_ai_fallback (fun _ => none) "not json at all" rfl

/-- C7 counterexample: appending the selection `["build/", "secrets.txt"]`
to an existing ignore file whose content does not end with a newline
(content `"x"`) produces `"x\nbuild/\nsecrets.txt\n"`, which does not end
with a blank line before the selected lines — the leading `'\n'` of the
appended block merely terminates the existing last line.  The claim's
"regardless of whether the pre-existing file content ended with a newline"
is therefore false. -/
theorem c7_counterexample :
    appendIgnore "x" ["build/", "secrets.txt"] = "x\nbuild/\nsecrets.txt\n" ∧
    ¬ endsWithBlankThenLines (appendIgnore "x" ["build/", "secrets.txt"])
        ["build/", "secrets.txt"] := by
  constructor
  · decide
  · unfold endsWithBlankThenLines
    decide

/-- C7 amended: the appended block is always exactly the newline, the
newline-joined selection and a final newline; and whenever the pre-existing
content is empty or ends with a newline, the resulting file does end with a
blank line followed by the selected lines, each newline-terminated. -/
theorem c7_amended :
    (∀ (old : String) (sel : List String),
       appendIgnore old sel =
         old ++ ("\n" ++ String.intercalate "\n" sel ++ "\n")) ∧
    (∀ (old : String) (sel : List String), sel ≠ [] →
       (old = "" ∨ ∃ q, old = q ++ "\n") →
       endsWithBlankThenLines (appendIgnore old sel) sel) := by
  constructor
  · intro old sel
    rfl
  · intro old sel _ hold
    exact appendIgnore_blankThenLines old sel hold

/-- C7 witness: the amended theorem applied to a newline-terminated
pre-existing file and the scenario's selection. -/
theorem c7_amended_witness :
    (["build/", "secrets.txt"] : List String) ≠ [] ∧
    endsWithBlankThenLines (appendIgnore "node_modules/\n" ["build/", "secrets.txt"])
      ["build/", "secrets.txt"] := by
  constructor
  · decide
  · exact c7_amended.2 "node_modules/\n" ["build/", "secrets.txt"] (by decide)
      (Or.inr ⟨"node_modules/", rfl⟩)

/-- C8: a failure of the git interaction on one repository (the abstracted
`remote` returning `none`, covering no-remote, network and auth errors
swallowed by the empty `catch`) leaves that repository counted only as an
attempted call: the cycle produces no notification for it and continues
with exactly the result of polling the remaining repositories. -/
theorem c8_failure_skipped (remote : List String → Option Nat)
    (p : List String) (rest : List (List String)) (h : remote p = none) :
    p ∈ (pollRepos remote (p :: rest)).remoteCalls ∧
    pollRepos remote (p :: rest) =
      ⟨p :: (pollRepos remote rest).remoteCalls,
       (pollRepos remote rest).notification⟩ := by
  have heq := pollRepos_failure remote p rest h
  rw [heq]
  exact ⟨by simp, rfl⟩

/-- C8 witness: a concrete cycle where the first repository's fetch fails
and the second is three commits behind — the first is skipped silently and
the second is notified. -/
theorem c8_failure_skipped_witness :
    (["bad"] : List String) ∈
      (pollRepos (fun q => if q = ["bad"] then none else some 3)
        [["bad"], ["ok"]]).remoteCalls ∧
    pollRepos (fun q => if q = ["bad"] then none else some 3)
        [["bad"], ["ok"]] =
      ⟨[["bad"], ["ok"]], some ["ok"]⟩ := by
  have h := c8_failure_skipped (fun q => if q = ["bad"] then none else some 3)
    ["bad"] [["ok"]] (by decide)
  exact ⟨h.1, by rw [h.2]; decide⟩

/-- C9: the key-resolution prologue of the secret-storage `aiCommit`.  A
usable secret (present, non-empty, placeholder-free) wins; with a falsy
secret a usable packaged default is used; when neither value is usable the
resolution is the actionable missing-key error; and on that error the
command performs no git or AI calls at all. -/
theorem c9_key_resolution (secretKey defaultKey : Option String)
    (statusFiles : Nat) (diff : String) :
    (∀ s, secretKey = some s → s ≠ "" → containsPlaceholder s = false →
       resolveApiKey secretKey defaultKey = .proceed s) ∧
    (strFalsy secretKey = true →
       ∀ s, defaultKey = some s → s ≠ "" → containsPlaceholder s = false →
         resolveApiKey secretKey defaultKey = .proceed s) ∧
    (¬ usableKey secretKey → ¬ usableKey defaultKey →
       resolveApiKey secretKey defaultKey = .errorSetKey) ∧
    (resolveApiKey secretKey defaultKey = .errorSetKey →
       aiCommitCalls secretKey defaultKey statusFiles diff = []) := by
  refine ⟨?_, ?_, ?_, ?_⟩
  · intro s hs hne hpl
    subst hs
    simp [resolveApiKey, strFalsy, hne, hpl]
  · intro hf s hd hne hpl
    subst hd
    simp [resolveApiKey, hf, hne, hpl]
  · intro h1 h2
    unfold resolveApiKey
    by_cases hf : strFalsy secretKey = true
    · simp only [hf, if_pos]
      cases hd : defaultKey with
      | none => rfl
      | some s =>
        by_cases hne : s = ""
        · simp [hne]
        · have hpl : containsPlaceholder s = true := by
            by_contra hc
            exact h2 ⟨s, hd, hne, by simpa using hc⟩
          simp [hne, hpl]
    · simp only [hf, if_neg]
      cases hs : secretKey with
      | none =>
        rw [hs] at hf
        simp [strFalsy] at hf
      | some s =>
        have hne : ¬ s = "" := by
          rw [hs] at hf
          simpa [strFalsy] using hf
        have hpl : containsPlaceholder s = true := by
          by_contra hc
          exact h1 ⟨s, hs, hne, by simpa using hc⟩
        simp [hne, hpl]
  · intro h
    unfold aiCommitCalls
    rw [h]

/-- C9 witness: with no stored secret and a usable packaged default the
command proceeds with the default key; with neither value present the
error path is taken and no git or AI call is made. -/
theorem c9_key_resolution_witness :
    resolveApiKey none (some "GOODKEY") = .proceed "GOODKEY" ∧
    aiCommitCalls none none 1 "d" = [] := by
  constructor
  · exact (c9_key_resolution none (some "GOODKEY") 1 "d").2.1 rfl "GOODKEY" rfl
      (by decide) (by decide)
  · exact (c9_key_resolution none none 1 "d").2.2.2 rfl

/-- C10: labels offered by `getRepoOrPickOne` are directory basenames (the
last path segment of each scan candidate), so same-named repositories get
identical labels; and whatever label the user picks, the result is the
path of the *first* repository in discovery order bearing that label —
selecting any later same-named repository yields the first one's path. -/
theorem c10_duplicate_labels (pick : List String → Option String)
    (t : List FsEntry) (lbl : String)
    (hlen : 2 ≤ (getRepoList t).length)
    (hpick : pick ((getRepoList t).map RepoEntry.label) = some lbl)
    (hmem : lbl ∈ (getRepoList t).map RepoEntry.label) :
    (∀ r ∈ findRepos 4 t [] 0, ∃ pre, r.path = pre ++ [r.label]) ∧
    ∃ pre r suf, getRepoList t = pre ++ r :: suf ∧ r.label = lbl ∧
      (∀ q ∈ pre, q.label ≠ lbl) ∧
      getRepoOrPickOne pick t = some r.path := by
  refine ⟨findRepos_label_basename 4 t [] 0, ?_⟩
  obtain ⟨x, hxmem, hxlbl⟩ := List.mem_map.mp hmem
  have hsome : ((getRepoList t).find? (fun r => r.label == lbl)).isSome := by
    rw [List.find?_isSome]
    exact ⟨x, hxmem, by simp [hxlbl]⟩
  obtain ⟨r, hr⟩ := Option.isSome_iff_exists.mp hsome
  have hdec := List.find?_eq_some.mp hr
  obtain ⟨as, bs, hsplit, hprev⟩ := hdec.2
  refine ⟨as, r, bs, hsplit, by simpa using hdec.1, ?_, ?_⟩
  · intro q hq
    have := hprev q hq
    simpa using this
  · unfold getRepoOrPickOne
    rcases hL : getRepoList t with _ | ⟨a, tl⟩
    · rw [hL] at hlen
      simp at hlen
    · rcases htl : tl with _ | ⟨b, tl2⟩
      · rw [hL, htl] at hlen
        simp at hlen
      · rw [hL, htl] at hpick hr
        simp only [hL, htl]
        rw [hpick]
        show Option.map RepoEntry.path
            (List.find? (fun r => r.label == lbl) (a :: b :: tl2)) = some r.path
        rw [hr]
        rfl

/-- C10 witness: the theorem applied to a concrete workspace holding two
repositories both named `app`; the pick of the shared label resolves to
the first one's path `["a", "app"]`, not the second's. -/
theorem c10_duplicate_labels_witness :
    getRepoList exDupLabels =
      [⟨"app", ["a", "app"]⟩, ⟨"app", ["b", "app"]⟩] ∧
    getRepoOrPickOne (fun _ => some "app") exDupLabels = some ["a", "app"] := by
  have hL : getRepoList exDupLabels =
      [⟨"app", ["a", "app"]⟩, ⟨"app", ["b", "app"]⟩] := by
    simp [getRepoList, findRepos, hasGit, FsEntry.name, exDupLabels]
  refine ⟨hL, ?_⟩
  obtain ⟨-, pre, r, suf, hsplit, hlbl, hfree, hres⟩ :=
    c10_duplicate_labels (fun _ => some "app") exDupLabels "app"
      (by rw [hL]; decide) rfl (by rw [hL]; decide)
  rw [hL] at hsplit
  rcases pre with - | ⟨p, pre2⟩
  · simp only [List.nil_append, List.cons.injEq] at hsplit
    rw [hres, ← hsplit.1]
  · simp only [List.cons_append, List.cons.injEq] at hsplit
    exact absurd (show p.label = "app" by rw [← hsplit.1]) (hfree p (by simp))
